import Mathlib

/-!
Shallow embedding of `pydpkg` (src/pydpkg/__init__.py): the Debian version
comparison algorithm (`get_epoch`, `get_upstream`, `split_full_version`,
`get_alphas`, `get_digits`, `listify`, `dstringcmp`,
`compare_revision_strings`, `compare_versions`), the control-header lookup
(`headers` / `get_header`), and the required-header validation loop of
`_process_dpkg_file`.

Python strings are modelled as `List Char`; the comparison code declares an
ASCII domain ("the debian policy here explicitly specifies ASCII string
comparisons"), so character predicates (`str.isdigit`, `str.isalpha`,
`str.lower`) are modelled on ASCII code points.  A raised exception is
modelled as `none` / an error flag; recursion on strings uses an explicit
fuel argument equal to the string length so that all definitions reduce by
kernel evaluation.
-/

/-- Coerce a Lean string literal to the `List Char` representation used by
the embedding. -/
def chars (s : String) : List Char := s.data

/-- ASCII model of Python `str.isdigit` for a single character. -/
def pyIsDigit (c : Char) : Bool := 48 ≤ c.toNat && c.toNat ≤ 57

/-- ASCII model of Python `str.isalpha` for a single character. -/
def pyIsAlpha (c : Char) : Bool :=
  (65 ≤ c.toNat && c.toNat ≤ 90) || (97 ≤ c.toNat && c.toNat ≤ 122)

/-- ASCII whitespace stripped by Python `int()` around a numeric literal. -/
def pyIsSpace (c : Char) : Bool :=
  c == ' ' || c == '\t' || c == '\n' || c == '\r' ||
    c == Char.ofNat 11 || c == Char.ofNat 12

/-- ASCII model of Python `str.lower` for a single character. -/
def pyToLower (c : Char) : Char :=
  if 65 ≤ c.toNat ∧ c.toNat ≤ 90 then Char.ofNat (c.toNat + 32) else c

/-- Value of an ASCII digit character. -/
def dval (c : Char) : Nat := c.toNat - 48

/-- Value of a string of ASCII digits, most significant first, as computed
by Python `int()` on an all-digit string. -/
def digitsToNat (ds : List Char) : Nat := ds.foldl (fun n c => 10 * n + dval c) 0

/-- The ASCII character for a single decimal digit. -/
def digitChar (d : Nat) : Char :=
  match d with
  | 0 => '0' | 1 => '1' | 2 => '2' | 3 => '3' | 4 => '4'
  | 5 => '5' | 6 => '6' | 7 => '7' | 8 => '8' | 9 => '9'
  | _ => '*'

/-- Decimal rendering of a natural number, with explicit fuel. -/
def natToDigitsFuel : Nat → Nat → List Char
  | 0, _ => []
  | fuel + 1, n =>
    if n < 10 then [digitChar n]
    else natToDigitsFuel fuel (n / 10) ++ [digitChar (n % 10)]

/-- Decimal rendering of a natural number (the text Python `str(int)`
produces for a non-negative value). -/
def natToDigits (n : Nat) : List Char := natToDigitsFuel (n + 1) n

/-- Tail of Python's integer-literal digit grammar: after one digit, a
sequence of digits where a single underscore may stand between digits. -/
def pyDigitsTail : List Char → Bool
  | [] => true
  | '_' :: [] => false
  | '_' :: d :: rest => pyIsDigit d && pyDigitsTail rest
  | c :: rest => pyIsDigit c && pyDigitsTail rest

/-- Python's integer-literal digit part: nonempty digits with single
underscores allowed between digits. -/
def pyDigits : List Char → Bool
  | [] => false
  | c :: rest => pyIsDigit c && pyDigitsTail rest

/-- Strip leading and trailing whitespace, as Python `int()` does. -/
def stripPySpace (s : List Char) : List Char :=
  ((s.dropWhile pyIsSpace).reverse.dropWhile pyIsSpace).reverse

/-- Model of Python `int(s)` on an ASCII string: optional surrounding
whitespace, an optional sign, then digits with optional single underscores
between them; `none` models the `ValueError` raised otherwise. -/
def pyIntParse (s : List Char) : Option Int :=
  match stripPySpace s with
  | '+' :: rest =>
    if pyDigits rest then some (digitsToNat (rest.filter (fun c => c ≠ '_')) : Nat)
    else none
  | '-' :: rest =>
    if pyDigits rest then some (-(digitsToNat (rest.filter (fun c => c ≠ '_')) : Int))
    else none
  | t =>
    if pyDigits t then some (digitsToNat (t.filter (fun c => c ≠ '_')) : Nat)
    else none

/-- Embedding of `Dpkg.get_epoch`: split the epoch integer off at the first
colon; `none` models the `DpkgVersionError` raised when the prefix before
the colon is not accepted by Python `int()`. -/
def get_epoch (s : List Char) : Option (Int × List Char) :=
  if ':' ∈ s then
    let pre := s.takeWhile (fun c => c ≠ ':')
    match pyIntParse pre with
    | none => none
    | some e => some (e, s.drop (pre.length + 1))
  else some (0, s)

/-- Embedding of `Dpkg.get_upstream`: split the debian revision off at the
last hyphen, defaulting to `"0"` when there is no hyphen. -/
def get_upstream (s : List Char) : List Char × List Char :=
  if '-' ∈ s then
    let d := (s.reverse.takeWhile (fun c => c ≠ '-')).reverse
    (s.take (s.length - d.length - 1), d)
  else (s, ['0'])

/-- Embedding of `Dpkg.split_full_version`. -/
def split_full_version (s : List Char) : Option (Int × List Char × List Char) :=
  (get_epoch s).map (fun p => (p.1, get_upstream p.2))

/-- Embedding of `Dpkg.get_alphas`: split a maximal leading run of
non-digit characters off a revision string. -/
def get_alphas (s : List Char) : List Char × List Char :=
  (s.takeWhile (fun c => !(pyIsDigit c)), s.dropWhile (fun c => !(pyIsDigit c)))

/-- Embedding of `Dpkg.get_digits`: split a maximal leading run of digit
characters off a revision string, as an integer value (0 when empty). -/
def get_digits (s : List Char) : Nat × List Char :=
  if s = [] then (0, [])
  else
    let run := s.takeWhile pyIsDigit
    if run = [] then (0, s)
    else (digitsToNat run, s.dropWhile pyIsDigit)

/-- A token of `Dpkg.listify`: a string element or an integer element. -/
inductive RToken where
  | txt (cs : List Char)
  | num (v : Nat)
deriving DecidableEq

/-- Worker for `listify` with explicit fuel. -/
def listifyFuel : Nat → List Char → List RToken
  | 0, _ => []
  | fuel + 1, s =>
    if s = [] then []
    else
      let p1 := get_alphas s
      let p2 := get_digits p1.2
      .txt p1.1 :: .num p2.1 :: listifyFuel fuel p2.2

/-- Embedding of `Dpkg.listify`: split a revision string into alternating
string and integer tokens, padded to even length. -/
def listify (s : List Char) : List RToken := listifyFuel s.length s

/-- The character-comparison loop of `Dpkg.dstringcmp`, including the
`IndexError` handler (second string exhausted) and the fall-through check
of the first unmatched character of the longer string. -/
def dstringcmpLoop : List Char → List Char → Int
  | [], [] => -1
  | [], d :: _ => if d = '~' then 1 else -1
  | c :: _, [] => if c = '~' then -1 else 1
  | c :: as, d :: bs =>
    if c = d then dstringcmpLoop as bs
    else if c = '~' then -1
    else if d = '~' then 1
    else if pyIsAlpha c && !(pyIsAlpha d) then -1
    else if !(pyIsAlpha c) && pyIsAlpha d then 1
    else if d.toNat < c.toNat then 1
    else if c.toNat < d.toNat then -1
    else dstringcmpLoop as bs

/-- Embedding of `Dpkg.dstringcmp`, the Debian lexical string comparison. -/
def dstringcmp (a b : List Char) : Int :=
  if a = b then 0 else dstringcmpLoop a b

/-- The token-comparison loop of `Dpkg.compare_revision_strings`; `none`
models the `DpkgVersionError` raised on a token type mismatch, and the
first-list-exhausted / `IndexError` cases return -1 / 1 with no tilde
check. -/
def crsLoop : List RToken → List RToken → Option Int
  | [], _ => some (-1)
  | _ :: _, [] => some 1
  | t :: ts, u :: us =>
    match t, u with
    | .txt x, .txt y => if x = y then crsLoop ts us else some (dstringcmp x y)
    | .num a, .num b =>
      if a = b then crsLoop ts us
      else if b < a then some 1
      else if a < b then some (-1)
      else crsLoop ts us
    | _, _ => none

/-- Embedding of `Dpkg.compare_revision_strings`. -/
def compare_revision_strings (r1 r2 : List Char) : Option Int :=
  if r1 = r2 then some 0
  else
    let l1 := listify r1
    let l2 := listify r2
    if l1 = l2 then some 0 else crsLoop l1 l2

/-- Embedding of `Dpkg.compare_versions`; `none` models a raised
`DpkgVersionError`. -/
def compare_versions (v1 v2 : List Char) : Option Int :=
  if v1 = v2 then some 0
  else
    match split_full_version v1, split_full_version v2 with
    | some (e1, u1, d1), some (e2, u2, d2) =>
      if e1 < e2 then some (-1)
      else if e2 < e1 then some 1
      else
        match compare_revision_strings u1 u2 with
        | none => none
        | some ur =>
          if ur ≠ 0 then some ur
          else
            match compare_revision_strings d1 d2 with
            | none => none
            | some dr => if dr ≠ 0 then some dr else some 0
    | _, _ => none

/-- Concatenation of the textual parts and the decimal renderings of the
numeric parts of a token sequence, in order. -/
def renderTokens : List RToken → List Char
  | [] => []
  | .txt cs :: rest => cs ++ renderTokens rest
  | .num v :: rest => natToDigits v ++ renderTokens rest

/-- Worker for `canonicalRev` with explicit fuel. -/
def canonRevFuel : Nat → List Char → Bool
  | 0, _ => true
  | fuel + 1, s =>
    if s = [] then true
    else
      let r1 := s.dropWhile (fun c => !(pyIsDigit c))
      let run := r1.takeWhile pyIsDigit
      if run = [] then false
      else
        (run.length == 1 || !(run.head? == some '0')) &&
          canonRevFuel fuel (r1.dropWhile pyIsDigit)

/-- A revision string is in canonical shape when it is empty or ends with a
digit and no maximal digit run carries a superfluous leading zero. -/
def canonicalRev (s : List Char) : Bool := canonRevFuel s.length s

/-- Characters the tokenizer round-trip claim quantifies over: ASCII
letters, digits, and the punctuation `. - ~ +`. -/
def allowedChar (c : Char) : Bool :=
  pyIsAlpha c || pyIsDigit c || c == '.' || c == '-' || c == '~' || c == '+'

/-- Modelled from the spec: a "valid non-negative integer", i.e. a nonempty
string of decimal digits (the reading of the original C3 claim). -/
def specNonnegInt (s : List Char) : Bool := !s.isEmpty && s.all pyIsDigit

/-- ASCII model of Python `str.lower` on a whole string. -/
def lowerStr (s : List Char) : List Char := s.map pyToLower

/-- Lookup in a Python dict built from an association list: the last
binding of a key wins. -/
def dictGet (items : List (List Char × List Char)) (k : List Char) :
    Option (List Char) :=
  (items.reverse.find? (fun p => p.1 == k)).map (fun p => p.2)

/-- Embedding of the `Dpkg.headers` property: `dict(self.message.items())`,
keys kept in their original case. -/
def headers (items : List (List Char × List Char)) :
    List (List Char × List Char) := items

/-- Embedding of `Dpkg.get_header`: lower-case the queried name and look it
up in `headers`, defaulting to the empty string. -/
def get_header (items : List (List Char × List Char)) (h : List Char) :
    List Char := (dictGet (headers items) (lowerStr h)).getD []

/-- The `REQUIRED_HEADERS` tuple. -/
def requiredHeaders : List (List Char) :=
  [chars "package", chars "version", chars "architecture"]

/-- Outcome of the required-header loop in `Dpkg._process_dpkg_file`:
whether `DpkgMissingRequiredHeaderError` was raised and whether the
`pdb.set_trace()` call on the missing-header path was executed. -/
structure HeaderCheck where
  raised : Bool
  pdbHit : Bool
deriving DecidableEq

/-- The required-header loop of `Dpkg._process_dpkg_file` (lines 195-204):
for each required header missing from the lower-cased message keys, the
code first enters the debugger, then either continues (permissive) or
raises. -/
def checkRequiredLoop (reqs : List (List Char)) (lowerKeys : List (List Char))
    (ignoreMissing : Bool) (pdbSoFar : Bool) : HeaderCheck :=
  match reqs with
  | [] => ⟨false, pdbSoFar⟩
  | req :: rest =>
    if req ∈ lowerKeys then checkRequiredLoop rest lowerKeys ignoreMissing pdbSoFar
    else if ignoreMissing then checkRequiredLoop rest lowerKeys ignoreMissing true
    else ⟨true, true⟩

/-- Required-header validation applied to the keys of a parsed control
message. -/
def checkRequiredHeaders (keys : List (List Char)) (ignoreMissing : Bool) :
    HeaderCheck :=
  checkRequiredLoop requiredHeaders (keys.map lowerStr) ignoreMissing false

/-- Expected head type for an alternating token list: `true` expects a
string token next, `false` a numeric token. -/
def altFrom : Bool → List RToken → Bool
  | _, [] => true
  | true, .txt _ :: rest => altFrom false rest
  | false, .num _ :: rest => altFrom true rest
  | _, _ => false

/-- Two tokens have the same type (string with string, integer with
integer). -/
def sameType : RToken → RToken → Bool
  | .txt _, .txt _ => true
  | .num _, .num _ => true
  | _, _ => false

/-- Positionally paired tokens of two lists all have matching types. -/
def typesMatch : List RToken → List RToken → Bool
  | _, [] => true
  | [], _ => true
  | t :: ts, u :: us => sameType t u && typesMatch ts us

example : get_epoch (chars "1:2.0") = some (1, chars "2.0") := by decide
example : get_epoch (chars "2.0") = some (0, chars "2.0") := by decide
example : get_epoch (chars "nope:2.0") = none := by decide
example : get_epoch (chars "-1:2.0") = some (-1, chars "2.0") := by decide
example : get_upstream (chars "1.0-1") = (chars "1.0", chars "1") := by decide
example : get_upstream (chars "1.0") = (chars "1.0", chars "0") := by decide
example : listify (chars "1.0~rc1") =
    [.txt [], .num 1, .txt ['.'], .num 0, .txt ['~', 'r', 'c'], .num 1] := by decide
example : compare_revision_strings (chars "1.0~rc1") (chars "1.0") = some 1 := by decide
example : compare_versions (chars "1.0~rc1") (chars "1.0") = some 1 := by decide
example : compare_versions (chars "1.0") (chars "1.0-0") = some 0 := by decide
example : compare_versions (chars "0:1.0") (chars "1.0") = some 0 := by decide
example : compare_versions (chars "1:1.0") (chars "2.0") = some 1 := by decide
example : dstringcmp (chars "1.0~") (chars "1.0") = -1 := by decide
example : dstringcmp (chars "1.0a") (chars "1.0") = 1 := by decide
example : renderTokens (listify (chars "a")) = chars "a0" := by decide
example : renderTokens (listify (chars "1.2-3")) = chars "1.2-3" := by decide
example : canonicalRev (chars "1.2-3") = true := by decide
example : canonicalRev (chars "a") = false := by decide
example : canonicalRev (chars "1.01") = false := by decide
example : get_header [(chars "Package", chars "foo")] (chars "package") = [] := by decide
example : checkRequiredHeaders [chars "Package", chars "Version"] false =
    ⟨true, true⟩ := by decide
example : checkRequiredHeaders [chars "Package", chars "Version"] true =
    ⟨false, true⟩ := by decide
example : checkRequiredHeaders [chars "Package", chars "Version", chars "Architecture"]
    false = ⟨false, false⟩ := by decide
example : pyIntParse (chars " 1_0 ") = some 10 := by decide
example : pyIntParse (chars "+12") = some 12 := by decide
example : pyIntParse (chars "1_") = none := by decide

theorem char_toNat_inj {c d : Char} (h : c.toNat = d.toNat) : c = d :=
  Char.eq_of_val_eq (UInt32.ext h)

theorem dsl_diff_head (x y : Char) (xs ys : List Char) (h : x ≠ y) :
    dstringcmpLoop (x :: xs) (y :: ys) =
      if x = '~' then -1
      else if y = '~' then 1
      else if pyIsAlpha x && !(pyIsAlpha y) then -1
      else if !(pyIsAlpha x) && pyIsAlpha y then 1
      else if y.toNat < x.toNat then 1
      else -1 := by
  have hne : x.toNat ≠ y.toNat := fun hn => h (char_toNat_inj hn)
  simp only [dstringcmpLoop, if_neg h]
  by_cases h1 : y.toNat < x.toNat
  · simp [h1]
  · have h2 : x.toNat < y.toNat := by omega
    simp [h1, h2]

theorem dsl_first_diff :
    ∀ (i : Nat) (a b : List Char) (h1 : i < a.length) (h2 : i < b.length),
      a.take i = b.take i → a.get ⟨i, h1⟩ ≠ b.get ⟨i, h2⟩ →
      dstringcmpLoop a b =
        if a.get ⟨i, h1⟩ = '~' then -1
        else if b.get ⟨i, h2⟩ = '~' then 1
        else if pyIsAlpha (a.get ⟨i, h1⟩) && !(pyIsAlpha (b.get ⟨i, h2⟩)) then -1
        else if !(pyIsAlpha (a.get ⟨i, h1⟩)) && pyIsAlpha (b.get ⟨i, h2⟩) then 1
        else if (b.get ⟨i, h2⟩).toNat < (a.get ⟨i, h1⟩).toNat then 1
        else -1 := by
  intro i
  induction i with
  | zero =>
    intro a b h1 h2 ht hd
    match a, b with
    | x :: xs, y :: ys =>
      simp only [List.get] at hd ⊢
      exact dsl_diff_head x y xs ys hd
  | succ i ih =>
    intro a b h1 h2 ht hd
    match a, b with
    | x :: xs, y :: ys =>
      simp only [List.take_succ_cons, List.cons.injEq] at ht
      obtain ⟨hxy, ht'⟩ := ht
      subst hxy
      simp only [List.get] at hd ⊢
      rw [show dstringcmpLoop (x :: xs) (x :: ys) = dstringcmpLoop xs ys by
        simp [dstringcmpLoop]]
      exact ih xs ys (Nat.lt_of_succ_lt_succ h1) (Nat.lt_of_succ_lt_succ h2) ht' hd

theorem dsl_right_longer :
    ∀ (a b : List Char) (h : a.length < b.length), b.take a.length = a →
      dstringcmpLoop a b = if b.get ⟨a.length, h⟩ = '~' then 1 else -1 := by
  intro a
  induction a with
  | nil =>
    intro b h ht
    match b with
    | y :: ys => simp [dstringcmpLoop, List.get]
  | cons x xs ih =>
    intro b h ht
    match b with
    | y :: ys =>
      simp only [List.length_cons, List.take_succ_cons, List.cons.injEq] at ht
      obtain ⟨hyx, ht'⟩ := ht
      subst hyx
      rw [show dstringcmpLoop (y :: xs) (y :: ys) = dstringcmpLoop xs ys by
        simp [dstringcmpLoop]]
      exact ih ys (Nat.lt_of_succ_lt_succ h) ht'

theorem dsl_left_longer :
    ∀ (b a : List Char) (h : b.length < a.length), a.take b.length = b →
      dstringcmpLoop a b = if a.get ⟨b.length, h⟩ = '~' then -1 else 1 := by
  intro b
  induction b with
  | nil =>
    intro a h ht
    match a with
    | x :: xs => simp [dstringcmpLoop, List.get]
  | cons y ys ih =>
    intro a h ht
    match a with
    | x :: xs =>
      simp only [List.length_cons, List.take_succ_cons, List.cons.injEq] at ht
      obtain ⟨hxy, ht'⟩ := ht
      subst hxy
      rw [show dstringcmpLoop (x :: xs) (x :: ys) = dstringcmpLoop xs ys by
        simp [dstringcmpLoop]]
      exact ih xs (Nat.lt_of_succ_lt_succ h) ht'

/-- C6: `dstringcmp` returns 0 on equal strings; at the first differing
position a tilde sorts lower, else an alphabetic character sorts lower than
a non-alphabetic one, else the lower character code sorts lower; when one
string is a strict proper prefix of the other the shorter is lesser unless
the longer string's next character is a tilde, in which case the longer is
lesser. -/
theorem claim_C6_dstringcmp :
    ∀ a b : List Char,
      (a = b → dstringcmp a b = 0) ∧
      (∀ (i : Nat) (h1 : i < a.length) (h2 : i < b.length),
        a.take i = b.take i → a.get ⟨i, h1⟩ ≠ b.get ⟨i, h2⟩ →
        dstringcmp a b =
          if a.get ⟨i, h1⟩ = '~' then -1
          else if b.get ⟨i, h2⟩ = '~' then 1
          else if pyIsAlpha (a.get ⟨i, h1⟩) && !(pyIsAlpha (b.get ⟨i, h2⟩)) then -1
          else if !(pyIsAlpha (a.get ⟨i, h1⟩)) && pyIsAlpha (b.get ⟨i, h2⟩) then 1
          else if (b.get ⟨i, h2⟩).toNat < (a.get ⟨i, h1⟩).toNat then 1
          else -1) ∧
      (∀ h : a.length < b.length, b.take a.length = a →
        dstringcmp a b = if b.get ⟨a.length, h⟩ = '~' then 1 else -1) ∧
      (∀ h : b.length < a.length, a.take b.length = b →
        dstringcmp a b = if a.get ⟨b.length, h⟩ = '~' then -1 else 1) := by
  intro a b
  refine ⟨fun h => by simp [dstringcmp, h], ?_, ?_, ?_⟩
  · intro i h1 h2 ht hd
    have hne : a ≠ b := by
      intro h
      subst h
      exact hd rfl
    rw [dstringcmp, if_neg hne]
    exact dsl_first_diff i a b h1 h2 ht hd
  · intro h ht
    have hne : a ≠ b := by
      intro he
      subst he
      exact Nat.lt_irrefl _ h
    rw [dstringcmp, if_neg hne]
    exact dsl_right_longer a b h ht
  · intro h ht
    have hne : a ≠ b := by
      intro he
      subst he
      exact Nat.lt_irrefl _ h
    rw [dstringcmp, if_neg hne]
    exact dsl_left_longer b a h ht

theorem claim_C6_witness : dstringcmp (chars "1.0~") (chars "1.0") = -1 := by
  have h := (claim_C6_dstringcmp (chars "1.0~") (chars "1.0")).2.2.2
    (by decide) (by decide)
  rw [h]
  decide

/-- C1: on the pair ("1.0~rc1", "1.0") the token sequence of the longer
revision strictly extends the shorter one and its next segment starts with
a tilde, yet the comparison returns 1 (ranks the tilde-continued string
higher): the end-of-token-list branch of `compare_revision_strings` has no
tilde check, contradicting the Debian policy cited in its own docstring. -/
theorem claim_C1_tilde_end_of_list :
    compare_revision_strings (chars "1.0~rc1") (chars "1.0") = some 1 ∧
    compare_versions (chars "1.0~rc1") (chars "1.0") = some 1 ∧
    listify (chars "1.0~rc1") =
      listify (chars "1.0") ++ [.txt ['~', 'r', 'c'], .num 1] := by
  refine ⟨by decide, by decide, by decide⟩

/-- C2: `headers` keeps the control message keys in their original case
while `get_header` lower-cases only the query, so on a control file with
header line `Package: foo` the lookup `get_header "package"` misses and
returns the empty string, not "foo". -/
theorem claim_C2_get_header_miss :
    get_header
      [(chars "Package", chars "foo"), (chars "Version", chars "1.0-1"),
        (chars "Architecture", chars "amd64")]
      (chars "package") = [] ∧
    get_header
      [(chars "Package", chars "foo"), (chars "Version", chars "1.0-1"),
        (chars "Architecture", chars "amd64")]
      (chars "package") ≠ chars "foo" := by
  refine ⟨by decide, by decide⟩

/-- C7: on a control block whose headers are only Package and Version
(Architecture missing), the required-header loop reaches the
`pdb.set_trace()` call before either raising (strict mode) or continuing
(permissive mode); when nothing is missing the debugger is not reached. -/
theorem claim_C7_missing_header_hits_debugger :
    checkRequiredHeaders [chars "Package", chars "Version"] false =
      ⟨true, true⟩ ∧
    checkRequiredHeaders [chars "Package", chars "Version"] true =
      ⟨false, true⟩ ∧
    checkRequiredHeaders [chars "Package", chars "Version", chars "Architecture"]
      false = ⟨false, false⟩ ∧
    checkRequiredHeaders [chars "Package", chars "Version", chars "Architecture"]
      true = ⟨false, false⟩ := by
  refine ⟨by decide, by decide, by decide, by decide⟩

/-- C10: identical inputs short-circuit `compare_versions` to 0 before any
parsing, so even a string whose epoch parsing raises compares equal to
itself. -/
theorem claim_C10_identity_short_circuit :
    (∀ s : List Char, compare_versions s s = some 0) ∧
    get_epoch (chars "nope:1") = none ∧
    split_full_version (chars "nope:1") = none ∧
    compare_versions (chars "nope:1") (chars "nope:1") = some 0 := by
  refine ⟨fun s => by simp [compare_versions], by decide, by decide, by decide⟩

theorem listifyFuel_alt : ∀ (fuel : Nat) (s : List Char),
    altFrom true (listifyFuel fuel s) = true := by
  intro fuel
  induction fuel with
  | zero => intro s; rfl
  | succ n ih =>
    intro s
    by_cases h : s = []
    · simp [listifyFuel, h, altFrom]
    · simp [listifyFuel, h, altFrom, ih]

theorem listify_alt (s : List Char) : altFrom true (listify s) = true :=
  listifyFuel_alt s.length s

theorem alt_typesMatch : ∀ (l1 l2 : List RToken) (flag : Bool),
    altFrom flag l1 = true → altFrom flag l2 = true →
    typesMatch l1 l2 = true := by
  intro l1
  induction l1 with
  | nil =>
    intro l2 flag h1 h2
    cases l2 <;> rfl
  | cons t ts ih =>
    intro l2 flag h1 h2
    cases l2 with
    | nil => rfl
    | cons u us =>
      cases flag with
      | true =>
        cases t with
        | num v => simp [altFrom] at h1
        | txt cs =>
          cases u with
          | num v => simp [altFrom] at h2
          | txt cs2 =>
            simp only [altFrom] at h1 h2
            simp [typesMatch, sameType, ih us false h1 h2]
      | false =>
        cases t with
        | txt cs => simp [altFrom] at h1
        | num v =>
          cases u with
          | txt cs2 => simp [altFrom] at h2
          | num v2 =>
            simp only [altFrom] at h1 h2
            simp [typesMatch, sameType, ih us true h1 h2]

theorem crsLoop_ok : ∀ (l1 l2 : List RToken) (flag : Bool),
    altFrom flag l1 = true → altFrom flag l2 = true →
    ∃ n, crsLoop l1 l2 = some n := by
  intro l1
  induction l1 with
  | nil => intro l2 flag h1 h2; exact ⟨-1, rfl⟩
  | cons t ts ih =>
    intro l2 flag h1 h2
    cases l2 with
    | nil => exact ⟨1, rfl⟩
    | cons u us =>
      cases flag with
      | true =>
        cases t with
        | num v => simp [altFrom] at h1
        | txt cs =>
          cases u with
          | num v => simp [altFrom] at h2
          | txt cs2 =>
            simp only [altFrom] at h1 h2
            by_cases he : cs = cs2
            · simpa [crsLoop, he] using ih us false h1 h2
            · exact ⟨dstringcmp cs cs2, by simp [crsLoop, he]⟩
      | false =>
        cases t with
        | txt cs => simp [altFrom] at h1
        | num v =>
          cases u with
          | txt cs2 => simp [altFrom] at h2
          | num v2 =>
            simp only [altFrom] at h1 h2
            by_cases he : v = v2
            · simpa [crsLoop, he] using ih us true h1 h2
            · rcases Nat.lt_or_ge v v2 with hlt | hge
              · exact ⟨-1, by simp [crsLoop, he, hlt, Nat.not_lt.mpr (Nat.le_of_lt hlt)]⟩
              · have hlt2 : v2 < v := Nat.lt_of_le_of_ne hge (Ne.symm he)
                exact ⟨1, by simp [crsLoop, he, hlt2]⟩

/-- C9: the tokenizer produces positionally type-matched sequences for any
two revision strings, and the type-mismatch error branch of
`compare_revision_strings` is unreachable: the comparison always returns a
value, never an error. -/
theorem claim_C9_type_matched :
    ∀ r1 r2 : List Char,
      typesMatch (listify r1) (listify r2) = true ∧
      ∃ n, compare_revision_strings r1 r2 = some n := by
  intro r1 r2
  constructor
  · exact alt_typesMatch (listify r1) (listify r2) true (listify_alt r1) (listify_alt r2)
  · by_cases h : r1 = r2
    · exact ⟨0, by simp [compare_revision_strings, h]⟩
    · by_cases hl : listify r1 = listify r2
      · exact ⟨0, by simp [compare_revision_strings, h, hl]⟩
      · obtain ⟨n, hn⟩ := crsLoop_ok (listify r1) (listify r2) true
          (listify_alt r1) (listify_alt r2)
        exact ⟨n, by simp [compare_revision_strings, h, hl, hn]⟩

theorem dsl_antisym : ∀ a b : List Char, a ≠ b →
    dstringcmpLoop b a = -(dstringcmpLoop a b) := by
  intro a
  induction a with
  | nil =>
    intro b hab
    cases b with
    | nil => exact absurd rfl hab
    | cons d bs => by_cases h : d = '~' <;> simp [dstringcmpLoop, h]
  | cons c as ih =>
    intro b hab
    cases b with
    | nil => by_cases h : c = '~' <;> simp [dstringcmpLoop, h]
    | cons d bs =>
      by_cases hcd : c = d
      · subst hcd
        have hts : as ≠ bs := fun hh => hab (by rw [hh])
        rw [show dstringcmpLoop (c :: bs) (c :: as) = dstringcmpLoop bs as by
          simp [dstringcmpLoop]]
        rw [show dstringcmpLoop (c :: as) (c :: bs) = dstringcmpLoop as bs by
          simp [dstringcmpLoop]]
        exact ih bs hts
      · have hne : c.toNat ≠ d.toNat := fun hn => hcd (char_toNat_inj hn)
        rw [dsl_diff_head c d as bs hcd, dsl_diff_head d c bs as (Ne.symm hcd)]
        by_cases h1 : c = '~'
        · have h2 : d ≠ '~' := fun hh => hcd (h1.trans hh.symm)
          simp [h1, h2]
        · by_cases h2 : d = '~'
          · simp [h1, h2]
          · have tri : d.toNat < c.toNat ∨ c.toNat < d.toNat := by omega
            by_cases hA : pyIsAlpha c <;> by_cases hB : pyIsAlpha d <;>
              rcases tri with hlt | hlt <;>
              simp [h1, h2, hA, hB, hlt, Nat.lt_asymm hlt]

theorem dstringcmp_antisym (a b : List Char) :
    dstringcmp b a = -(dstringcmp a b) := by
  by_cases h : a = b
  · simp [dstringcmp, h]
  · rw [dstringcmp, dstringcmp, if_neg h, if_neg (Ne.symm h)]
    exact dsl_antisym a b h

theorem crsLoop_antisym : ∀ (l1 l2 : List RToken) (n : Int), l1 ≠ l2 →
    crsLoop l1 l2 = some n → crsLoop l2 l1 = some (-n) := by
  intro l1
  induction l1 with
  | nil =>
    intro l2 n hne h
    cases l2 with
    | nil => exact absurd rfl hne
    | cons u us =>
      simp only [crsLoop, Option.some.injEq] at h
      subst h
      norm_num [crsLoop]
  | cons t ts ih =>
    intro l2 n hne h
    cases l2 with
    | nil =>
      simp only [crsLoop, Option.some.injEq] at h
      subst h
      norm_num [crsLoop]
    | cons u us =>
      cases t with
      | txt x =>
        cases u with
        | txt y =>
          by_cases hxy : x = y
          · subst hxy
            have hts : ts ≠ us := fun hh => hne (by rw [hh])
            simp only [crsLoop, if_pos rfl] at h ⊢
            exact ih us n hts h
          · simp only [crsLoop, if_neg hxy, Option.some.injEq] at h
            subst h
            simp only [crsLoop, if_neg (Ne.symm hxy), dstringcmp_antisym x y]
        | num v => simp [crsLoop] at h
      | num v =>
        cases u with
        | txt y => simp [crsLoop] at h
        | num w =>
          by_cases hvw : v = w
          · subst hvw
            have hts : ts ≠ us := fun hh => hne (by rw [hh])
            simp only [crsLoop, if_pos rfl] at h ⊢
            exact ih us n hts h
          · rcases Nat.lt_trichotomy v w with hlt | heq | hgt
            · simp only [crsLoop, if_neg hvw, if_neg (Nat.lt_asymm hlt),
                if_pos hlt, Option.some.injEq] at h
              subst h
              simp only [crsLoop, if_neg (Ne.symm hvw), if_pos hlt]
              norm_num
            · exact absurd heq hvw
            · simp only [crsLoop, if_neg hvw, if_pos hgt,
                Option.some.injEq] at h
              subst h
              simp only [crsLoop, if_neg (Ne.symm hvw),
                if_neg (Nat.lt_asymm hgt), if_pos hgt]

theorem crs_self (r : List Char) : compare_revision_strings r r = some 0 := by
  simp [compare_revision_strings]

theorem crs_antisym (r1 r2 : List Char) (n : Int)
    (h : compare_revision_strings r1 r2 = some n) :
    compare_revision_strings r2 r1 = some (-n) := by
  by_cases h12 : r1 = r2
  · subst h12
    rw [crs_self] at h
    obtain rfl : (0 : Int) = n := by simpa using h
    norm_num [crs_self]
  · rw [compare_revision_strings, if_neg h12] at h
    rw [compare_revision_strings, if_neg (Ne.symm h12)]
    by_cases hl : listify r1 = listify r2
    · rw [if_pos hl] at h
      obtain rfl : (0 : Int) = n := by simpa using h
      rw [if_pos hl.symm]
      norm_num
    · rw [if_neg hl] at h
      rw [if_neg (fun hh => hl hh.symm)]
      exact crsLoop_antisym (listify r1) (listify r2) n hl h

/-- C5: whenever the comparison succeeds, swapping the arguments negates
the result, and every version string compares equal to itself. -/
theorem claim_C5_antisymmetry :
    (∀ (a b : List Char) (n : Int), compare_versions a b = some n →
      compare_versions b a = some (-n)) ∧
    (∀ v : List Char, compare_versions v v = some 0) := by
  constructor
  · intro a b n h
    by_cases hab : a = b
    · subst hab
      rw [show compare_versions a a = some 0 by simp [compare_versions]] at h
      obtain rfl : (0 : Int) = n := by simpa using h
      norm_num [compare_versions]
    · rw [compare_versions, if_neg hab] at h
      rw [compare_versions, if_neg (Ne.symm hab)]
      rcases h1 : split_full_version a with _ | ⟨e1, u1, d1⟩
      · rw [h1] at h
        simp at h
      rcases h2 : split_full_version b with _ | ⟨e2, u2, d2⟩
      · rw [h1, h2] at h
        simp at h
      rw [h1, h2] at h
      dsimp only at h ⊢
      by_cases he1 : e1 < e2
      · rw [if_pos he1] at h
        obtain rfl : (-1 : Int) = n := by simpa using h
        rw [if_neg (by omega : ¬ e2 < e1), if_pos he1]
        norm_num
      by_cases he2 : e2 < e1
      · rw [if_neg he1, if_pos he2] at h
        obtain rfl : (1 : Int) = n := by simpa using h
        rw [if_pos he2]
      rw [if_neg he1, if_neg he2] at h
      rw [if_neg he2, if_neg he1]
      rcases h3 : compare_revision_strings u1 u2 with _ | ur
      · rw [h3] at h
        simp at h
      rw [h3] at h
      rw [crs_antisym u1 u2 ur h3]
      dsimp only at h ⊢
      by_cases hu : ur ≠ 0
      · rw [if_pos hu] at h
        obtain rfl : ur = n := by simpa using h
        rw [if_pos (by omega : -ur ≠ 0)]
      · rw [if_neg hu] at h
        rw [if_neg (by omega : ¬ -ur ≠ 0)]
        rcases h4 : compare_revision_strings d1 d2 with _ | dr
        · rw [h4] at h
          simp at h
        rw [h4] at h
        rw [crs_antisym d1 d2 dr h4]
        dsimp only at h ⊢
        by_cases hd : dr ≠ 0
        · rw [if_pos hd] at h
          obtain rfl : dr = n := by simpa using h
          rw [if_pos (by omega : -dr ≠ 0)]
        · rw [if_neg hd] at h
          obtain rfl : (0 : Int) = n := by simpa using h
          rw [if_neg (by omega : ¬ -dr ≠ 0)]
          norm_num
  · intro v
    simp [compare_versions]

theorem claim_C5_witness :
    compare_versions (chars "2.0") (chars "1.0") = some 1 := by
  have h := claim_C5_antisymmetry.1 (chars "1.0") (chars "2.0") (-1) (by decide)
  simpa using h

theorem takeWhile_to_colon (pre rest : List Char) (h : ':' ∉ pre) :
    (pre ++ ':' :: rest).takeWhile (fun c => c ≠ ':') = pre := by
  induction pre with
  | nil => simp
  | cons c pre' ih =>
    have hc : c ≠ ':' := fun hh => h (hh ▸ List.mem_cons_self c pre')
    have h' : ':' ∉ pre' := fun hh => h (List.mem_cons_of_mem c hh)
    rw [List.cons_append, List.takeWhile_cons_of_pos (by simp [hc]), ih h']

theorem drop_past_colon (pre rest : List Char) :
    (pre ++ ':' :: rest).drop (pre.length + 1) = rest := by
  have : pre ++ ':' :: rest = (pre ++ [':']) ++ rest := by simp
  rw [this, show pre.length + 1 = (pre ++ [':']).length by simp]
  exact List.drop_left _ _

/-- C3 (amended): `get_epoch` raises exactly when the string contains a
colon and the prefix before the first colon is not accepted by Python
`int()` (`pyIntParse`, which also admits signs, surrounding whitespace and
digit-group underscores, so acceptance is wider than the plain non-negative
numerals the original claim describes); otherwise it returns the parsed
value with the remainder after the first colon, and (0, whole string) when
no colon is present. -/
theorem claim_C3_get_epoch :
    (∀ (pre rest : List Char), ':' ∉ pre →
      (pyIntParse pre = none → get_epoch (pre ++ ':' :: rest) = none) ∧
      (∀ e : Int, pyIntParse pre = some e →
        get_epoch (pre ++ ':' :: rest) = some (e, rest))) ∧
    (∀ s : List Char, ':' ∉ s → get_epoch s = some (0, s)) ∧
    get_epoch (chars "1:2.0") = some (1, chars "2.0") ∧
    get_epoch (chars "2.0") = some (0, chars "2.0") ∧
    get_epoch (chars "nope:2.0") = none := by
  refine ⟨?_, ?_, by decide, by decide, by decide⟩
  · intro pre rest hpre
    have hmem : ':' ∈ pre ++ ':' :: rest :=
      List.mem_append_right pre (List.mem_cons_self ':' rest)
    have htw := takeWhile_to_colon pre rest hpre
    constructor
    · intro hp
      simp only [get_epoch, if_pos hmem, htw, hp]
    · intro e hp
      simp only [get_epoch, if_pos hmem, htw, hp, drop_past_colon]
  · intro s hs
    simp only [get_epoch, if_neg hs]

theorem claim_C3_witness :
    get_epoch (chars "12" ++ ':' :: chars "x") = some (12, chars "x") :=
  (claim_C3_get_epoch.1 (chars "12") (chars "x") (by decide)).2 12 (by decide)

/-- C3 counterexample: on "-1:2.0" a colon is present and the prefix "-1"
is not a valid non-negative integer, yet `get_epoch` does not raise — it
returns the negative epoch -1, because Python `int()` accepts a sign. -/
theorem claim_C3_counterexample :
    ':' ∈ chars "-1:2.0" ∧
    specNonnegInt ((chars "-1:2.0").takeWhile (fun c => c ≠ ':')) = false ∧
    get_epoch (chars "-1:2.0") = some (-1, chars "2.0") := by
  refine ⟨by decide, by decide, by decide⟩

theorem takeWhile_append_of_colon (v w : List Char) (h : ':' ∈ v) :
    (v ++ w).takeWhile (fun c => c ≠ ':') = v.takeWhile (fun c => c ≠ ':') := by
  induction v with
  | nil => exact absurd h (List.not_mem_nil ':')
  | cons c v' ih =>
    by_cases hc : c = ':'
    · subst hc
      rw [List.cons_append, List.takeWhile_cons_of_neg (by simp),
        List.takeWhile_cons_of_neg (by simp)]
    · have h' : ':' ∈ v' := by
        rcases List.mem_cons.mp h with hh | hh
        · exact absurd hh.symm hc
        · exact hh
      rw [List.cons_append, List.takeWhile_cons_of_pos (by simp [hc]),
        List.takeWhile_cons_of_pos (by simp [hc]), ih h']

theorem takeWhile_colon_length_lt (v : List Char) (h : ':' ∈ v) :
    (v.takeWhile (fun c => c ≠ ':')).length < v.length := by
  induction v with
  | nil => exact absurd h (List.not_mem_nil ':')
  | cons c v' ih =>
    by_cases hc : c = ':'
    · subst hc
      rw [List.takeWhile_cons_of_neg (by simp)]
      simp
    · have h' : ':' ∈ v' := by
        rcases List.mem_cons.mp h with hh | hh
        · exact absurd hh.symm hc
        · exact hh
      rw [List.takeWhile_cons_of_pos (by simp [hc])]
      simpa using ih h'

theorem get_epoch_no_colon (s : List Char) (h : ':' ∉ s) :
    get_epoch s = some (0, s) := by
  simp [get_epoch, h]

theorem get_epoch_drop (v : List Char) (e : Int) (r : List Char)
    (h : get_epoch v = some (e, r)) : ∃ k, r = v.drop k := by
  by_cases hc : ':' ∈ v
  · rw [get_epoch, if_pos hc] at h
    dsimp only at h
    rcases hp : pyIntParse (v.takeWhile (fun c => c ≠ ':')) with _ | e'
    · rw [hp] at h
      simp at h
    · rw [hp] at h
      dsimp only at h
      obtain ⟨-, hr⟩ := Prod.mk.injEq .. ▸ Option.some.injEq .. ▸ h
      exact ⟨(v.takeWhile (fun c => c ≠ ':')).length + 1, hr.symm⟩
  · rw [get_epoch_no_colon v hc] at h
    obtain ⟨-, hr⟩ := Prod.mk.injEq .. ▸ Option.some.injEq .. ▸ h
    exact ⟨0, hr.symm⟩

theorem get_epoch_append (v w : List Char) (hw : ':' ∉ w) (e : Int)
    (r : List Char) (h : get_epoch v = some (e, r)) :
    get_epoch (v ++ w) = some (e, r ++ w) := by
  by_cases hc : ':' ∈ v
  · rw [get_epoch, if_pos hc] at h
    dsimp only at h
    rcases hp : pyIntParse (v.takeWhile (fun c => c ≠ ':')) with _ | e'
    · rw [hp] at h
      simp at h
    · rw [hp] at h
      dsimp only at h
      obtain ⟨he, hr⟩ := Prod.mk.injEq .. ▸ Option.some.injEq .. ▸ h
      have hmem : ':' ∈ v ++ w := List.mem_append_left w hc
      rw [get_epoch, if_pos hmem]
      dsimp only
      rw [takeWhile_append_of_colon v w hc, hp]
      dsimp only
      rw [List.drop_append_of_le_length
        (by have := takeWhile_colon_length_lt v hc; omega)]
      rw [← he, ← hr]
  · rw [get_epoch_no_colon v hc] at h
    obtain ⟨he, hr⟩ := Prod.mk.injEq .. ▸ Option.some.injEq .. ▸ h
    have hmem : ':' ∉ v ++ w := by
      intro hh
      rcases List.mem_append.mp hh with hh' | hh'
      · exact hc hh'
      · exact hw hh'
    rw [get_epoch_no_colon _ hmem, ← he, ← hr]

theorem get_upstream_no_hyphen (r : List Char) (h : '-' ∉ r) :
    get_upstream r = (r, ['0']) := by
  simp [get_upstream, h]

theorem get_upstream_append_dash0 (r : List Char) :
    get_upstream (r ++ ['-', '0']) = (r, ['0']) := by
  have hmem : '-' ∈ r ++ ['-', '0'] := List.mem_append_right r (by simp)
  have htw : ((r ++ ['-', '0']).reverse.takeWhile (fun c => c ≠ '-')) = ['0'] := by
    rw [show (r ++ ['-', '0']).reverse = '0' :: '-' :: r.reverse by simp,
      List.takeWhile_cons_of_pos (by simp), List.takeWhile_cons_of_neg (by simp)]
  rw [get_upstream, if_pos hmem]
  dsimp only
  rw [htw]
  rw [show (['0'] : List Char).reverse = ['0'] by rfl]
  have hlen2 : (r ++ ['-', '0']).length - (['0'] : List Char).length - 1 =
      r.length := by simp
  rw [hlen2, List.take_left]

/-- C8: an explicit zero epoch versus an absent one, and an explicit "-0"
debian revision versus an absent one, compare equal; in particular
compare("0:1.0", "1.0") = 0 and compare("1.0", "1.0-0") = 0. -/
theorem claim_C8_zero_forms :
    (∀ v : List Char, ':' ∉ v →
      compare_versions ('0' :: ':' :: v) v = some 0) ∧
    (∀ (v : List Char) (e : Int) (r : List Char), '-' ∉ v →
      get_epoch v = some (e, r) →
      compare_versions v (v ++ ['-', '0']) = some 0) ∧
    compare_versions (chars "0:1.0") (chars "1.0") = some 0 ∧
    compare_versions (chars "1.0") (chars "1.0-0") = some 0 := by
  refine ⟨?_, ?_, by decide, by decide⟩
  · intro v hv
    have hne : ('0' :: ':' :: v) ≠ v := by
      intro hh
      have := congrArg List.length hh
      simp only [List.length_cons] at this
      omega
    have he1 : get_epoch ('0' :: ':' :: v) = some (0, v) := by
      have hmem : ':' ∈ '0' :: ':' :: v := by simp
      rw [get_epoch, if_pos hmem]
      dsimp only
      rw [show ('0' :: ':' :: v).takeWhile (fun c => c ≠ ':') = ['0'] by
        rw [List.takeWhile_cons_of_pos (by simp),
          List.takeWhile_cons_of_neg (by simp)]]
      rw [show pyIntParse ['0'] = some 0 from by decide]
      rfl
    have he2 : get_epoch v = some (0, v) := get_epoch_no_colon v hv
    rw [compare_versions, if_neg hne, split_full_version, split_full_version,
      he1, he2]
    simp [crs_self]
  · intro v e r hv hep
    have hne : v ≠ v ++ ['-', '0'] := by
      intro hh
      have := congrArg List.length hh
      simp only [List.length_append, List.length_cons, List.length_nil] at this
      omega
    have he2 : get_epoch (v ++ ['-', '0']) = some (e, r ++ ['-', '0']) :=
      get_epoch_append v ['-', '0'] (by decide) e r hep
    have hr : '-' ∉ r := by
      obtain ⟨k, hk⟩ := get_epoch_drop v e r hep
      intro hh
      exact hv (List.mem_of_mem_drop (hk ▸ hh))
    rw [compare_versions, if_neg hne, split_full_version, split_full_version,
      hep, he2]
    simp [get_upstream_no_hyphen r hr, get_upstream_append_dash0 r, crs_self]

theorem claim_C8_witness :
    compare_versions ('0' :: ':' :: chars "1.0") (chars "1.0") = some 0 :=
  claim_C8_zero_forms.1 (chars "1.0") (by decide)

theorem pyIsDigit_bounds (c : Char) (h : pyIsDigit c = true) :
    48 ≤ c.toNat ∧ c.toNat ≤ 57 := by
  simpa [pyIsDigit] using h

theorem digitChar_toNat (d : Nat) (h : d ≤ 9) : (digitChar d).toNat = 48 + d := by
  interval_cases d <;> decide

theorem dval_le_nine (c : Char) (h : pyIsDigit c = true) : dval c ≤ 9 := by
  have := pyIsDigit_bounds c h
  unfold dval
  omega

theorem digitChar_dval (c : Char) (h : pyIsDigit c = true) :
    digitChar (dval c) = c := by
  have hb := pyIsDigit_bounds c h
  apply char_toNat_inj
  rw [digitChar_toNat (dval c) (dval_le_nine c h)]
  unfold dval
  omega

theorem foldl_dig (l : List Char) (a : Nat) :
    l.foldl (fun n c => 10 * n + dval c) a =
      a * 10 ^ l.length + l.foldl (fun n c => 10 * n + dval c) 0 := by
  induction l generalizing a with
  | nil => simp
  | cons c l ih =>
    simp only [List.foldl_cons, List.length_cons]
    rw [ih (10 * a + dval c), ih (10 * 0 + dval c)]
    ring

theorem digitsToNat_cons (c : Char) (l : List Char) :
    digitsToNat (c :: l) = dval c * 10 ^ l.length + digitsToNat l := by
  unfold digitsToNat
  simp only [List.foldl_cons]
  rw [foldl_dig]
  ring_nf

theorem digitsToNat_append_last (xs : List Char) (c : Char) :
    digitsToNat (xs ++ [c]) = 10 * digitsToNat xs + dval c := by
  unfold digitsToNat
  rw [List.foldl_append]
  simp

theorem digitsToNat_ge_one (c : Char) (l : List Char)
    (hc : pyIsDigit c = true) (h0 : c ≠ '0') : 1 ≤ digitsToNat (c :: l) := by
  rw [digitsToNat_cons]
  have hb := pyIsDigit_bounds c hc
  have h48 : c.toNat ≠ 48 := by
    intro hh
    exact h0 (char_toNat_inj (hh.trans (by decide : (48 : Nat) = ('0' : Char).toNat)))
  have h1 : 1 ≤ dval c := by unfold dval; omega
  have hp : 0 < 10 ^ l.length := by positivity
  nlinarith

theorem natToDigitsFuel_congr : ∀ (n f1 f2 : Nat), n < f1 → n < f2 →
    natToDigitsFuel f1 n = natToDigitsFuel f2 n := by
  intro n
  induction n using Nat.strong_induction_on with
  | _ n ih =>
    intro f1 f2 h1 h2
    cases f1 with
    | zero => omega
    | succ g1 =>
      cases f2 with
      | zero => omega
      | succ g2 =>
        simp only [natToDigitsFuel]
        by_cases h10 : n < 10
        · simp [h10]
        · rw [if_neg h10, if_neg h10]
          have hdiv : n / 10 < n := Nat.div_lt_self (by omega) (by omega)
          rw [ih (n / 10) hdiv g1 g2 (by omega) (by omega)]

theorem natToDigits_eq (n : Nat) :
    natToDigits n = if n < 10 then [digitChar n]
      else natToDigits (n / 10) ++ [digitChar (n % 10)] := by
  by_cases h10 : n < 10
  · rw [if_pos h10]
    unfold natToDigits
    simp [natToDigitsFuel, h10]
  · rw [if_neg h10]
    unfold natToDigits
    rw [show natToDigitsFuel (n + 1) n =
      natToDigitsFuel n (n / 10) ++ [digitChar (n % 10)] by
        simp [natToDigitsFuel, h10]]
    congr 1
    exact natToDigitsFuel_congr (n / 10)
      n (n / 10 + 1) (Nat.div_lt_self (by omega) (by omega)) (by omega)

theorem natToDigits_of_canonical : ∀ ds : List Char, ds ≠ [] →
    (∀ c ∈ ds, pyIsDigit c = true) →
    (ds.length = 1 ∨ ds.head? ≠ some '0') →
    natToDigits (digitsToNat ds) = ds := by
  intro ds
  induction ds using List.reverseRecOn with
  | nil => intro h; exact absurd rfl h
  | append_singleton xs c ih =>
    intro hne hdig hcanon
    cases xs with
    | nil =>
      have hc : pyIsDigit c = true := hdig c (by simp)
      have hdv : dval c < 10 := by have := dval_le_nine c hc; omega
      have hD : digitsToNat [c] = dval c := by simp [digitsToNat, dval]
      simp only [List.nil_append] at *
      rw [hD, natToDigits_eq, if_pos hdv, digitChar_dval c hc]
    | cons x xs' =>
      have hx0 : x ≠ '0' := by
        rcases hcanon with hl | hh
        · rw [List.length_append, List.length_cons] at hl
          simp at hl
        · intro hx
          apply hh
          rw [show ((x :: xs') ++ [c]).head? = some x by simp, hx]
      have hdig' : ∀ a ∈ x :: xs', pyIsDigit a = true :=
        fun a ha => hdig a (List.mem_append_left _ ha)
      have hc : pyIsDigit c = true :=
        hdig c (List.mem_append_right _ (by simp))
      have hdvc : dval c < 10 := by have := dval_le_nine c hc; omega
      have hDxs : 1 ≤ digitsToNat (x :: xs') :=
        digitsToNat_ge_one x xs' (hdig' x (by simp)) hx0
      rw [digitsToNat_append_last, natToDigits_eq,
        if_neg (by omega : ¬ 10 * digitsToNat (x :: xs') + dval c < 10),
        (by omega : (10 * digitsToNat (x :: xs') + dval c) / 10 =
          digitsToNat (x :: xs')),
        (by omega : (10 * digitsToNat (x :: xs') + dval c) % 10 = dval c),
        digitChar_dval c hc,
        ih (by simp) hdig' (Or.inr (by simp [hx0]))]

theorem dropWhile_head_not (p : Char → Bool) : ∀ (l : List Char) (c : Char)
    (rest : List Char), l.dropWhile p = c :: rest → p c = false := by
  intro l
  induction l with
  | nil => intro c rest h; simp at h
  | cons a l ih =>
    intro c rest h
    by_cases hp : p a
    · rw [List.dropWhile_cons_of_pos hp] at h
      exact ih c rest h
    · rw [List.dropWhile_cons_of_neg hp] at h
      injection h with h1 h2
      subst h1
      exact Bool.eq_false_iff.mpr hp

theorem length_dropWhile_le (p : Char → Bool) (l : List Char) :
    (l.dropWhile p).length ≤ l.length := by
  induction l with
  | nil => simp
  | cons c cs ih =>
    by_cases h : p c
    · rw [List.dropWhile_cons_of_pos h]
      simp only [List.length_cons]
      omega
    · rw [List.dropWhile_cons_of_neg h]

theorem remains_length_lt (s : List Char) (hs : s ≠ []) :
    ((get_digits (get_alphas s).2).2).length < s.length := by
  have hspos : 0 < s.length := List.length_pos.mpr hs
  rcases hr1 : s.dropWhile (fun c => !(pyIsDigit c)) with _ | ⟨c, r1'⟩
  · simp [get_alphas, get_digits, hr1]
    omega
  · have hc : pyIsDigit c = true := by
      have := dropWhile_head_not (fun c => !(pyIsDigit c)) s c r1' hr1
      simpa using this
    have hr1len : r1'.length + 1 ≤ s.length := by
      have := length_dropWhile_le (fun c => !(pyIsDigit c)) s
      rw [hr1] at this
      simpa using this
    have hrun : (c :: r1').takeWhile pyIsDigit = c :: r1'.takeWhile pyIsDigit :=
      List.takeWhile_cons_of_pos hc
    have hdw : (c :: r1').dropWhile pyIsDigit = r1'.dropWhile pyIsDigit :=
      List.dropWhile_cons_of_pos hc
    rw [get_alphas]
    dsimp only
    rw [hr1, get_digits, if_neg (by simp), hrun]
    dsimp only
    rw [if_neg (by simp), hdw]
    dsimp only
    have := length_dropWhile_le pyIsDigit r1'
    omega

theorem listifyFuel_nil (f : Nat) : listifyFuel f [] = [] := by
  cases f <;> simp [listifyFuel]

theorem listifyFuel_congr : ∀ (k : Nat) (s : List Char) (f1 f2 : Nat),
    s.length ≤ k → s.length ≤ f1 → s.length ≤ f2 →
    listifyFuel f1 s = listifyFuel f2 s := by
  intro k
  induction k with
  | zero =>
    intro s f1 f2 hk h1 h2
    have : s = [] := List.eq_nil_of_length_eq_zero (by omega)
    subst this
    rw [listifyFuel_nil, listifyFuel_nil]
  | succ k ih =>
    intro s f1 f2 hk h1 h2
    by_cases hs : s = []
    · subst hs
      rw [listifyFuel_nil, listifyFuel_nil]
    · have hspos : 0 < s.length := List.length_pos.mpr hs
      cases f1 with
      | zero => omega
      | succ g1 =>
        cases f2 with
        | zero => omega
        | succ g2 =>
          simp only [listifyFuel, if_neg hs]
          have hlt := remains_length_lt s hs
          rw [ih ((get_digits (get_alphas s).2).2) g1 g2 (by omega) (by omega)
            (by omega)]

theorem listify_step (s : List Char) (hs : s ≠ []) :
    listify s = .txt (get_alphas s).1 :: .num (get_digits (get_alphas s).2).1 ::
      listify ((get_digits (get_alphas s).2).2) := by
  have hspos : 0 < s.length := List.length_pos.mpr hs
  have hlt := remains_length_lt s hs
  unfold listify
  cases hl : s.length with
  | zero => omega
  | succ k =>
    simp only [listifyFuel, if_neg hs]
    rw [listifyFuel_congr ((get_digits (get_alphas s).2).2).length
      ((get_digits (get_alphas s).2).2) k ((get_digits (get_alphas s).2).2).length
      le_rfl (by omega) le_rfl]

theorem canonRevFuel_nil (f : Nat) : canonRevFuel f [] = true := by
  cases f <;> simp [canonRevFuel]

theorem canonRevFuel_congr : ∀ (k : Nat) (s : List Char) (f1 f2 : Nat),
    s.length ≤ k → s.length ≤ f1 → s.length ≤ f2 →
    canonRevFuel f1 s = canonRevFuel f2 s := by
  intro k
  induction k with
  | zero =>
    intro s f1 f2 hk h1 h2
    have : s = [] := List.eq_nil_of_length_eq_zero (by omega)
    subst this
    rw [canonRevFuel_nil, canonRevFuel_nil]
  | succ k ih =>
    intro s f1 f2 hk h1 h2
    by_cases hs : s = []
    · subst hs
      rw [canonRevFuel_nil, canonRevFuel_nil]
    · have hspos : 0 < s.length := List.length_pos.mpr hs
      cases f1 with
      | zero => omega
      | succ g1 =>
        cases f2 with
        | zero => omega
        | succ g2 =>
          simp only [canonRevFuel, if_neg hs]
          rcases hr1 : s.dropWhile (fun c => !(pyIsDigit c)) with _ | ⟨c, r1'⟩
          · simp
          · have hc : pyIsDigit c = true := by
              have := dropWhile_head_not (fun c => !(pyIsDigit c)) s c r1' hr1
              simpa using this
            have hrun : (c :: r1').takeWhile pyIsDigit =
                c :: r1'.takeWhile pyIsDigit := List.takeWhile_cons_of_pos hc
            have hdw : (c :: r1').dropWhile pyIsDigit =
                r1'.dropWhile pyIsDigit := List.dropWhile_cons_of_pos hc
            rw [hrun, hdw]
            have hr1len : r1'.length + 1 ≤ s.length := by
              have := length_dropWhile_le (fun c => !(pyIsDigit c)) s
              rw [hr1] at this
              simpa using this
            have hdwlen := length_dropWhile_le pyIsDigit r1'
            rw [ih (r1'.dropWhile pyIsDigit) g1 g2 (by omega) (by omega)
              (by omega)]

theorem canonicalRev_step (s : List Char) (hs : s ≠ []) :
    canonicalRev s =
      ((s.dropWhile (fun c => !(pyIsDigit c))).takeWhile pyIsDigit ≠ [] &&
        (((s.dropWhile (fun c => !(pyIsDigit c))).takeWhile pyIsDigit).length == 1 ||
          !(((s.dropWhile (fun c => !(pyIsDigit c))).takeWhile pyIsDigit).head? ==
            some '0')) &&
        canonicalRev ((s.dropWhile (fun c => !(pyIsDigit c))).dropWhile pyIsDigit)) := by
  have hspos : 0 < s.length := List.length_pos.mpr hs
  unfold canonicalRev
  cases hl : s.length with
  | zero => omega
  | succ k =>
    simp only [canonRevFuel, if_neg hs]
    rcases hr1 : s.dropWhile (fun c => !(pyIsDigit c)) with _ | ⟨c, r1'⟩
    · simp
    · have hc : pyIsDigit c = true := by
        have := dropWhile_head_not (fun c => !(pyIsDigit c)) s c r1' hr1
        simpa using this
      have hrun : (c :: r1').takeWhile pyIsDigit =
          c :: r1'.takeWhile pyIsDigit := List.takeWhile_cons_of_pos hc
      have hdw : (c :: r1').dropWhile pyIsDigit =
          r1'.dropWhile pyIsDigit := List.dropWhile_cons_of_pos hc
      rw [hrun, hdw]
      have hr1len : r1'.length + 1 ≤ s.length := by
        have := length_dropWhile_le (fun c => !(pyIsDigit c)) s
        rw [hr1] at this
        simpa using this
      have hdwlen := length_dropWhile_le pyIsDigit r1'
      rw [canonRevFuel_congr (r1'.dropWhile pyIsDigit).length
        (r1'.dropWhile pyIsDigit) k (r1'.dropWhile pyIsDigit).length le_rfl
        (by omega) le_rfl]
      simp [List.takeWhile_cons_of_pos hc]

theorem render_listify : ∀ (k : Nat) (s : List Char), s.length ≤ k →
    canonicalRev s = true → renderTokens (listify s) = s := by
  intro k
  induction k with
  | zero =>
    intro s hk hc
    have : s = [] := List.eq_nil_of_length_eq_zero (by omega)
    subst this
    rfl
  | succ k ih =>
    intro s hk hc
    by_cases hs : s = []
    · subst hs
      rfl
    · rw [canonicalRev_step s hs] at hc
      rcases hrun : (s.dropWhile (fun c => !(pyIsDigit c))).takeWhile pyIsDigit
        with _ | ⟨c, run'⟩
      · rw [hrun] at hc
        simp at hc
      · rw [hrun] at hc
        simp only [Bool.and_eq_true, decide_eq_true_eq] at hc
        obtain ⟨⟨-, hA⟩, hrest⟩ := hc
        have hr1ne : s.dropWhile (fun c => !(pyIsDigit c)) ≠ [] := by
          intro hh
          rw [hh] at hrun
          simp at hrun
        have hgd : get_digits (s.dropWhile (fun c => !(pyIsDigit c))) =
            (digitsToNat (c :: run'),
              (s.dropWhile (fun c => !(pyIsDigit c))).dropWhile pyIsDigit) := by
          rw [get_digits, if_neg hr1ne]
          dsimp only
          rw [hrun, if_neg (by simp)]
        have hga2 : (get_alphas s).2 = s.dropWhile (fun c => !(pyIsDigit c)) := rfl
        have hrundig : ∀ a ∈ c :: run', pyIsDigit a = true := by
          intro a ha
          rw [← hrun] at ha
          exact List.mem_takeWhile_imp ha
        have hcanon : (c :: run').length = 1 ∨ (c :: run').head? ≠ some '0' := by
          rw [Bool.or_eq_true] at hA
          rcases hA with hA | hA
          · exact Or.inl (by simpa using hA)
          · right
            simpa using hA
        have hround : natToDigits (digitsToNat (c :: run')) = c :: run' :=
          natToDigits_of_canonical (c :: run') (by simp) hrundig hcanon
        have hlt : ((get_digits (get_alphas s).2).2).length < s.length :=
          remains_length_lt s hs
        rw [listify_step s hs]
        simp only [renderTokens]
        rw [hga2, hgd]
        dsimp only
        rw [hround, ih ((s.dropWhile (fun c => !(pyIsDigit c))).dropWhile pyIsDigit)
          (by rw [hga2, hgd] at hlt; dsimp only at hlt; omega) hrest]
        rw [show (get_alphas s).1 = s.takeWhile (fun c => !(pyIsDigit c)) from rfl]
        rw [← hrun]
        rw [List.takeWhile_append_dropWhile, List.takeWhile_append_dropWhile]

/-- C4 (amended): concatenating the string tokens and the decimal
renderings of the integer tokens of `listify` reconstructs the original
revision string exactly, for revision strings over the letters, digits and
`. - ~ +` alphabet that are in canonical shape: empty or ending in a digit,
with no maximal digit run carrying a superfluous leading zero.  (The
original unrestricted claim fails: a trailing non-digit segment makes
`listify` pad a 0 integer token, and leading zeros of a digit run are lost
by integer conversion.) -/
theorem claim_C4_roundtrip (s : List Char)
    (_hallowed : ∀ c ∈ s, allowedChar c = true)
    (hcanon : canonicalRev s = true) :
    renderTokens (listify s) = s :=
  render_listify s.length s le_rfl hcanon

theorem claim_C4_witness :
    renderTokens (listify (chars "1.2-3")) = chars "1.2-3" :=
  claim_C4_roundtrip (chars "1.2-3") (by decide) (by decide)

/-- C4 counterexample: "a" is made only of allowed characters, yet token
reconstruction yields "a0" (the padded trailing integer token renders as
"0"), so the unrestricted round-trip claim is false. -/
theorem claim_C4_counterexample :
    (∀ c ∈ chars "a", allowedChar c = true) ∧
    renderTokens (listify (chars "a")) ≠ chars "a" ∧
    renderTokens (listify (chars "a")) = chars "a0" := by
  refine ⟨by decide, by decide, by decide⟩
